import Mathlib

/-!
Verification of the semantic cache, SQL casing formatter and SQL guardrails of
the NLP-to-SQL server (semantic-cache.service.ts, execution.service.ts,
guardrails.service.ts).

Modelling conventions:
* Embedding vectors are lists of real numbers; the JavaScript floating-point
  arithmetic of `cosineSimilarity` is modelled over the reals.
* The embedding provider is modelled by its outcome, an `Except` value: either
  the produced vector or an error.
* `Date.now()` timestamps are natural numbers (milliseconds).
* The persisted cache file is modelled as the `persisted` field of the store
  state; `saveCache` sets it to the in-memory list.
-/

namespace NLP2SQL

/-- A cached question-to-SQL mapping (interface CacheEntry). -/
structure CacheEntry where
  question : String
  embedding : List ℝ
  sql : String
  timestamp : ℕ

/-- The semantic cache store: in-memory entries plus the persisted file
content (cache.json). -/
structure CacheState where
  cache : List CacheEntry
  persisted : List CacheEntry

/-- The single loop of `cosineSimilarity` accumulates three running sums over
the indices of `vecA`; each is a sum of products of vector components (absent
components read as JavaScript `undefined`; the loop is used on
equal-dimension vectors, modelled here with default 0). -/
noncomputable def loopSum (n : ℕ) (f g : List ℝ) : ℝ :=
  (Finset.range n).sum fun i => f.getD i 0 * g.getD i 0

/-- cosineSimilarity(vecA, vecB): dot(a,b) / (sqrt(normA) * sqrt(normB)),
returning 0 when either accumulated norm is 0 (the guard
`if (normA === 0 || normB === 0) return 0`). All three sums range over
`vecA.length` as in the source loop. -/
noncomputable def cosineSimilarity (vecA vecB : List ℝ) : ℝ :=
  if loopSum vecA.length vecA vecA = 0 ∨ loopSum vecA.length vecB vecB = 0 then 0
  else loopSum vecA.length vecA vecB /
    (Real.sqrt (loopSum vecA.length vecA vecA) * Real.sqrt (loopSum vecA.length vecB vecB))

/-- The squared norm of a vector (sum of squares of its components). -/
noncomputable def normSq (v : List ℝ) : ℝ := loopSum v.length v v

open Classical in
/-- One iteration of the `for (const entry of this.cache)` loop of
`findSimilar`: update the running (bestMatch, maxSimilarity) pair whenever
`similarity > maxSimilarity` (strict, so ties keep the earlier entry). -/
noncomputable def scanStep (q : List ℝ) (acc : Option CacheEntry × ℝ) (entry : CacheEntry) :
    Option CacheEntry × ℝ :=
  let similarity := cosineSimilarity q entry.embedding
  if acc.2 < similarity then (some entry, similarity) else acc

/-- The whole scan, starting from (null, -1). -/
noncomputable def bestScan (q : List ℝ) (cache : List CacheEntry) : Option CacheEntry × ℝ :=
  cache.foldl (scanStep q) (none, -1)

open Classical in
/-- The pure core of `findSimilar` after the embedding is obtained: run the
scan, then return `bestMatch.sql` iff `maxSimilarity >= similarityThreshold`
and a best match exists (`if (maxSimilarity >= this.similarityThreshold &&
bestMatch)`). -/
noncomputable def findSimilarPure (q : List ℝ) (cache : List CacheEntry) (t : ℝ) :
    Option String :=
  let scan := bestScan q cache
  if t ≤ scan.2 ∧ scan.1.isSome = true then Option.map (fun e => e.sql) scan.1 else none

/-- findSimilar(question): obtain the question embedding (which may fail);
the surrounding try/catch turns any provider failure into a `null` result
("Fail safe to LLM"). On success, scan the store. -/
noncomputable def findSimilar (embedRes : Except String (List ℝ)) (st : CacheState) (t : ℝ) :
    Option String :=
  match embedRes with
  | Except.error _ => none
  | Except.ok q => findSimilarPure q st.cache t

/-- Ascending-timestamp comparator used by `this.cache.sort((a, b) =>
a.timestamp - b.timestamp)`. -/
def tsLe (a b : CacheEntry) : Prop := a.timestamp ≤ b.timestamp

instance : DecidableRel tsLe := fun a b => Nat.decLe a.timestamp b.timestamp

instance : IsTotal CacheEntry tsLe := ⟨fun a b => Nat.le_total a.timestamp b.timestamp⟩

instance : IsTrans CacheEntry tsLe := ⟨fun _ _ _ h1 h2 => Nat.le_trans h1 h2⟩

/-- cacheResult(question, sql): obtain the embedding (on failure the catch
block aborts the whole operation silently), push the new entry, and if the
store now exceeds `maxCacheSize` sort ascending by timestamp (JavaScript
`Array.prototype.sort` is stable, modelled by insertion sort) and `shift()`
off the first (oldest) entry; finally `saveCache()` persists the list. -/
def cacheResult (embedRes : Except String (List ℝ)) (question sql : String)
    (now maxSize : ℕ) (st : CacheState) : CacheState :=
  match embedRes with
  | Except.error _ => st
  | Except.ok emb =>
    let newEntry : CacheEntry := ⟨question, emb, sql, now⟩
    let grown := st.cache ++ [newEntry]
    let kept := if maxSize < grown.length then (List.insertionSort tsLe grown).tail else grown
    ⟨kept, kept⟩

/-- A sequence of successful `cacheResult` insertions, each op describing the
question, its (successfully obtained) embedding, the SQL and the call time. -/
def runInserts (maxSize : ℕ) (st : CacheState) (ops : List CacheEntry) : CacheState :=
  ops.foldl
    (fun s e => cacheResult (Except.ok e.embedding) e.question e.sql e.timestamp maxSize s) st

open Classical in
/-- Specification-side selection, following the claim text: the
first-encountered entry of maximum cosine similarity to the query (later
entries win only on strictly greater similarity). -/
noncomputable def firstArgmax (q : List ℝ) : List CacheEntry → Option CacheEntry
  | [] => none
  | e :: rest =>
    match firstArgmax q rest with
    | none => some e
    | some m =>
      if cosineSimilarity q e.embedding < cosineSimilarity q m.embedding then some m else some e

open Classical in
/-- Specification-side lookup, following the claim text: report the
first-encountered maximum-similarity entry's sql iff its similarity is
greater than or equal to the threshold (inclusive boundary). -/
noncomputable def specLookup (q : List ℝ) (cache : List CacheEntry) (t : ℝ) : Option String :=
  match firstArgmax q cache with
  | none => none
  | some m => if t ≤ cosineSimilarity q m.embedding then some m.sql else none

open Classical in
/-- The candidate the scan holds after starting from entry `m` and consuming
`rest`: the first-encountered strict improvement chain ends at the
first-encountered maximum of `m :: rest`. -/
noncomputable def pick (q : List ℝ) (m : CacheEntry) (rest : List CacheEntry) : CacheEntry :=
  match firstArgmax q rest with
  | none => m
  | some w =>
    if cosineSimilarity q m.embedding < cosineSimilarity q w.embedding then w else m

/-- Concrete entry used to exercise the lookup theorems. -/
def sampleEntry : CacheEntry := ⟨("what is one"), [(1 : ℝ)], ("SELECT 1"), 0⟩

/-- Concrete entries used to exercise the eviction theorems. -/
def entA : CacheEntry := ⟨("qa"), [], ("sa"), 1⟩

/-- Second concrete entry, strictly more recent than `entA`. -/
def entB : CacheEntry := ⟨("qb"), [], ("sb"), 2⟩

/-!
JavaScript strings are modelled as lists of UTF-16 code units (natural
numbers); `strL` injects Lean string literals.  Case mapping is modelled on
the ASCII range (the SQL strings the pipeline manipulates), where it agrees
with JavaScript `toLowerCase`/`toUpperCase`.
-/

/-- Code units of a string literal. -/
def strL (s : String) : List ℕ := s.data.map Char.toNat

/-- ASCII `toLowerCase` on one code unit. -/
def jsToLower (c : ℕ) : ℕ := if 65 ≤ c ∧ c ≤ 90 then c + 32 else c

/-- ASCII `toUpperCase` on one code unit. -/
def jsToUpper (c : ℕ) : ℕ := if 97 ≤ c ∧ c ≤ 122 then c - 32 else c

/-- `toLowerCase` on a whole string. -/
def lowerStr (s : List ℕ) : List ℕ := s.map jsToLower

/-- `toUpperCase` on a whole string. -/
def upperStr (s : List ℕ) : List ℕ := s.map jsToUpper

/-- Word character for the regex `\b` boundary: `[A-Za-z0-9_]`. -/
def isWordChar (c : ℕ) : Bool :=
  decide ((48 ≤ c ∧ c ≤ 57) ∨ (65 ≤ c ∧ c ≤ 90) ∨ (97 ≤ c ∧ c ≤ 122) ∨ c = 95)

/-- Whitespace for `\s` (ASCII whitespace plus NBSP and BOM). -/
def isSpaceChar (c : ℕ) : Bool :=
  decide (c = 32 ∨ c = 9 ∨ c = 10 ∨ c = 11 ∨ c = 12 ∨ c = 13 ∨ c = 160 ∨ c = 65279)

/-- A character on which the tokenizing split `/(\s+|,|\(|\)|;)/` separates:
whitespace, comma, parentheses or semicolon. -/
def isSepChar (c : ℕ) : Bool := isSpaceChar c || decide (c = 44 ∨ c = 40 ∨ c = 41 ∨ c = 59)

/-- `\d` digit. -/
def isDigitChar (c : ℕ) : Bool := decide (48 ≤ c ∧ c ≤ 57)

/-- The keyword list of `formatSqlCasing` (execution.service.ts). -/
def sqlKeywords : List (List ℕ) :=
  [strL ("SELECT"), strL ("FROM"), strL ("WHERE"), strL ("JOIN"), strL ("INNER"),
   strL ("LEFT"), strL ("RIGHT"), strL ("OUTER"), strL ("FULL"),
   strL ("ON"), strL ("AND"), strL ("OR"), strL ("NOT"), strL ("IN"), strL ("LIKE"),
   strL ("BETWEEN"), strL ("IS"), strL ("NULL"),
   strL ("GROUP BY"), strL ("ORDER BY"), strL ("HAVING"), strL ("DISTINCT"), strL ("AS"),
   strL ("CASE"), strL ("WHEN"), strL ("THEN"),
   strL ("ELSE"), strL ("END"), strL ("UNION"), strL ("ALL"), strL ("LIMIT"),
   strL ("OFFSET"), strL ("FETCH"), strL ("FIRST"), strL ("NEXT"),
   strL ("ROWS"), strL ("ONLY"), strL ("WITH"), strL ("OVER"), strL ("PARTITION BY")]

/-- `new Set(keywords.map(k => k.toUpperCase()))`. -/
def upperKeywordSet : List (List ℕ) := sqlKeywords.map upperStr

/-- Attempted match of the pattern `\bKW\b` (flags `gi`) at the current
position: the next `kw.length` units equal `kw` up to case (the space in a
multi-word keyword matches exactly one space), and the unit after the match,
if any, is not a word character.  The boundary before the match is checked
by the caller via the preceding unit's wordness (every keyword starts and
ends with a word character). -/
def matchesAt (kw s : List ℕ) : Bool :=
  !kw.isEmpty && ((s.take kw.length).map jsToLower == kw.map jsToLower) &&
    (match s.drop kw.length with
     | [] => true
     | d :: _ => ! isWordChar d)

/-- The global-replace scan of `formattedSql.replace(new RegExp('\\b' + kw +
'\\b', 'gi'), kw)`: left to right; on a match emit the keyword (its
uppercase form, as listed) and skip the matched units; otherwise copy one
unit.  `skip` counts matched units still to consume, `prevW` is the wordness
of the previously consumed unit (false at the start of input). -/
def replaceKwGo (kw : List ℕ) : ℕ → Bool → List ℕ → List ℕ
  | _, _, [] => []
  | skip + 1, _, c :: cs => replaceKwGo kw skip (isWordChar c) cs
  | 0, prevW, c :: cs =>
    if !prevW && matchesAt kw (c :: cs) then
      kw ++ replaceKwGo kw (kw.length - 1) (isWordChar c) cs
    else
      c :: replaceKwGo kw 0 (isWordChar c) cs

/-- One whole-string keyword replacement. -/
def replaceKw (kw s : List ℕ) : List ℕ := replaceKwGo kw 0 false s

/-- First pass of `formatSqlCasing`: `keywords.forEach(keyword => ...
replace ...)`, sequentially over the keyword list. -/
def pass1 (s : List ℕ) : List ℕ := sqlKeywords.foldl (fun acc kw => replaceKw kw acc) s

/-- JavaScript `String.prototype.trim`. -/
def jsTrim (s : List ℕ) : List ℕ :=
  ((s.dropWhile isSpaceChar).reverse.dropWhile isSpaceChar).reverse

/-- The `/^['"]/` quoted-literal test: first unit is a quote. -/
def headQuote (t : List ℕ) : Bool :=
  match t with
  | c :: _ => decide (c = 39 ∨ c = 34)
  | [] => false

/-- The `/^[,\(\);]$/` punctuation-token test. -/
def isPunctTok (t : List ℕ) : Bool :=
  match t with
  | [c] => decide (c = 44 ∨ c = 40 ∨ c = 41 ∨ c = 59)
  | _ => false

/-- The per-token map of the second pass of `formatSqlCasing`: skip
whitespace, punctuation and keywords; lowercase dotted names; keep numbers
and quoted literals; lowercase everything else. -/
def processToken (token : List ℕ) : List ℕ :=
  let trimmed := jsTrim token
  let upper := upperStr trimmed
  if trimmed.isEmpty || isPunctTok trimmed || upperKeywordSet.contains upper then token
  else if sqlKeywords.any (fun kw => upper == upperStr kw) then token
  else if trimmed.contains 46 then lowerStr trimmed
  else if trimmed.all isDigitChar || headQuote trimmed then token
  else lowerStr trimmed

/-- Second pass of `formatSqlCasing`: split on separators (each kept, and
mapped to itself by the token map), apply `processToken` to each maximal
non-separator run, and rejoin.  `skip` counts token units already emitted. -/
def pass2Go : ℕ → List ℕ → List ℕ
  | _, [] => []
  | skip + 1, _ :: cs => pass2Go skip cs
  | 0, c :: cs =>
    if isSepChar c then c :: pass2Go 0 cs
    else
      let tok := (c :: cs).takeWhile (fun d => ! isSepChar d)
      processToken tok ++ pass2Go (tok.length - 1) cs

/-- formatSqlCasing: uppercase keyword pass, then identifier-lowercasing
token pass. -/
def formatSqlCasing (sql : List ℕ) : List ℕ := pass2Go 0 (pass1 sql)

/-- Wordness of the last unit of `l` (or `w` when `l` is empty); tracks the
`prevW` state across a consumed prefix. -/
def wAfter (w : Bool) (l : List ℕ) : Bool := l.foldl (fun _ c => isWordChar c) w

/-- Mask of positions uppercased by one keyword replacement (true = position
is inside a match), mirroring `replaceKwGo` one emitted bit per unit. -/
def maskKwGo (kw : List ℕ) : ℕ → Bool → List ℕ → List Bool
  | _, _, [] => []
  | skip + 1, _, c :: cs => true :: maskKwGo kw skip (isWordChar c) cs
  | 0, prevW, c :: cs =>
    if !prevW && matchesAt kw (c :: cs) then
      true :: maskKwGo kw (kw.length - 1) (isWordChar c) cs
    else
      false :: maskKwGo kw 0 (isWordChar c) cs

/-- Whole-string mask of one keyword replacement. -/
def kwMask (kw s : List ℕ) : List Bool := maskKwGo kw 0 false s

/-- Pointwise disjunction of two masks. -/
def orMask (a b : List Bool) : List Bool := List.zipWith (fun x y => x || y) a b

/-- Accumulated mask of the whole first pass. -/
def pass1Mask (l : List ℕ) : List Bool :=
  sqlKeywords.foldl (fun m kw => orMask m (kwMask kw l)) (List.replicate l.length false)

/-- Apply `f` at the masked positions. -/
def applyMask (f : ℕ → ℕ) (m : List Bool) (s : List ℕ) : List ℕ :=
  List.zipWith (fun b c => if b then f c else c) m s

/-- Whether `processToken` lowercases this (nonempty, separator-free)
token. -/
def tokenLowerBit (t : List ℕ) : Bool :=
  if t.isEmpty || isPunctTok t || upperKeywordSet.contains (upperStr t) then false
  else if sqlKeywords.any (fun kw => upperStr t == upperStr kw) then false
  else if t.contains 46 then true
  else if t.all isDigitChar || headQuote t then false
  else true

/-- Mask of positions lowercased by the second pass (the bit of the token a
position belongs to; separators get false), mirroring `pass2Go` one bit per
unit; `b` carries the current token's bit across its skipped units. -/
def maskP2Go : ℕ → Bool → List ℕ → List Bool
  | _, _, [] => []
  | skip + 1, b, _ :: cs => b :: maskP2Go skip b cs
  | 0, b, c :: cs =>
    if isSepChar c then false :: maskP2Go 0 b cs
    else
      let tok := (c :: cs).takeWhile (fun d => ! isSepChar d)
      tokenLowerBit tok :: maskP2Go (tok.length - 1) (tokenLowerBit tok) cs

/-- Whole-string mask of the second pass. -/
def pass2Mask (l : List ℕ) : List Bool := maskP2Go 0 false l

/-!
Guardrails (guardrails.service.ts): `validateSqlSyntax` and `validateInput`.
-/

/-- `String.prototype.includes`: substring occurrence. -/
def hasSub (pat : List ℕ) : List ℕ → Bool
  | [] => pat.isEmpty
  | c :: cs => List.isPrefixOf pat (c :: cs) || hasSub pat cs

/-- `sql.trim().replace(/\s+/g, ' ')`, the whitespace-collapsing part: each
maximal whitespace run becomes a single space; `inRun` remembers whether the
previous unit was whitespace. -/
def collapseWsGo (inRun : Bool) : List ℕ → List ℕ
  | [] => []
  | c :: cs =>
    if isSpaceChar c then
      if inRun then collapseWsGo true cs else 32 :: collapseWsGo true cs
    else c :: collapseWsGo false cs

/-- The `normalizedSql` of `validateSqlSyntax`. -/
def normalizeSql (sql : List ℕ) : List ℕ := collapseWsGo false (jsTrim sql)

/-- `new RegExp('\\b' + op + '\\b', 'i').test(s)`: some position carries a
word-boundary match of the keyword. -/
def hasKwMatch (kw : List ℕ) : Bool → List ℕ → Bool
  | _, [] => false
  | prevW, c :: cs => (!prevW && matchesAt kw (c :: cs)) || hasKwMatch kw (isWordChar c) cs

/-- Attempted match of `\bW1\s+W2\b` at the current position (boundary
before is the caller's `prevW`): `w1` up to case, one or more whitespace
units, then `w2` with a trailing word boundary. -/
def matchesTwoAt (w1 w2 s : List ℕ) : Bool :=
  ((s.take w1.length).map jsToLower == w1.map jsToLower) &&
    (let rest := s.drop w1.length
     !(rest.takeWhile isSpaceChar).isEmpty && matchesAt w2 (rest.dropWhile isSpaceChar))

/-- `new RegExp('\\bW1\\s+W2\\b', 'i').test(s)`. -/
def hasKwMatchTwo (w1 w2 : List ℕ) : Bool → List ℕ → Bool
  | _, [] => false
  | prevW, c :: cs => (!prevW && matchesTwoAt w1 w2 (c :: cs)) || hasKwMatchTwo w1 w2 (isWordChar c) cs

/-- The validation result record. -/
structure SqlValidationResult where
  isValid : Bool
  errors : List (List ℕ)
  warnings : List (List ℕ)

/-- The fixed denylist of mutating/DDL operations. -/
def prohibitedOperations : List (List ℕ) :=
  [strL ("DROP"), strL ("DELETE"), strL ("UPDATE"), strL ("INSERT"), strL ("ALTER"),
   strL ("CREATE"), strL ("TRUNCATE"), strL ("GRANT"), strL ("REVOKE")]

/-- The error message pushed for a detected prohibited operation. -/
def prohibitedMsg (op : List ℕ) : List ℕ :=
  strL ("Prohibited operation detected: ") ++ op ++ strL (". Only SELECT queries are allowed.")

/-- One step of the keyword-typo warning loop, single-word keyword: the
keyword's letters occur adjacently but never as a word-boundary keyword. -/
def typoWarnSingle (kw u : List ℕ) : List (List ℕ) :=
  if hasSub kw u && ! hasKwMatch kw false u then
    [strL ("Possible typo in keyword: ") ++ kw] else []

/-- One step of the keyword-typo warning loop, two-word keyword (the space
is removed for the `includes` probe and becomes `\s+` in the regex). -/
def typoWarnTwo (w1 w2 u : List ℕ) : List (List ℕ) :=
  if hasSub (w1 ++ w2) u && ! hasKwMatchTwo w1 w2 false u then
    [strL ("Possible typo in keyword: ") ++ w1 ++ [32] ++ w2] else []

/-- validateSqlSyntax: trim and collapse whitespace; empty input
short-circuits; then the denylist scan (word-boundary, case-insensitive on
the uppercased SQL), SELECT-start, FROM-clause, parenthesis balance, quote
parity and statement-stacking checks each append an error in order; the
row-limit and keyword-typo advisories append warnings.  isValid iff no
errors. -/
def validateSqlSyntax (sql : List ℕ) : SqlValidationResult :=
  let normalizedSql := normalizeSql sql
  if normalizedSql.isEmpty then
    ⟨false, [strL ("SQL query is empty")], []⟩
  else
    let upperSql := upperStr normalizedSql
    let errs1 := (prohibitedOperations.filter (fun op => hasKwMatch op false upperSql)).map
      prohibitedMsg
    let errs2 := if ! List.isPrefixOf (strL ("SELECT")) upperSql then
      [strL ("Query must start with SELECT keyword")] else []
    let errs3 := if ! hasSub (strL (" FROM ")) upperSql then
      [strL ("Query must contain a FROM clause")] else []
    let errs4 := if normalizedSql.count 40 ≠ normalizedSql.count 41 then
      [strL ("Unbalanced parentheses detected")] else []
    let errs5 := if normalizedSql.count 39 % 2 ≠ 0 then
      [strL ("Unclosed single quotes detected")] else []
    let errs6 := if normalizedSql.count 34 % 2 ≠ 0 then
      [strL ("Unclosed double quotes detected")] else []
    let errs7 := if 1 < normalizedSql.count 59 then
      [strL ("Multiple SQL statements detected. Only single SELECT queries are allowed.")]
      else []
    let warns1 := if ! hasSub (strL ("FETCH")) upperSql && ! hasSub (strL ("LIMIT")) upperSql
        && ! hasSub (strL ("TOP")) upperSql then
      [strL ("No row limit specified. Consider adding FETCH FIRST n ROWS ONLY for large datasets.")]
      else []
    let warns2 := typoWarnSingle (strL ("SELECT")) upperSql
      ++ typoWarnSingle (strL ("FROM")) upperSql
      ++ typoWarnSingle (strL ("WHERE")) upperSql
      ++ typoWarnSingle (strL ("JOIN")) upperSql
      ++ typoWarnSingle (strL ("ON")) upperSql
      ++ typoWarnTwo (strL ("GROUP")) (strL ("BY")) upperSql
      ++ typoWarnTwo (strL ("ORDER")) (strL ("BY")) upperSql
      ++ typoWarnSingle (strL ("HAVING")) upperSql
    let errors := errs1 ++ errs2 ++ errs3 ++ errs4 ++ errs5 ++ errs6 ++ errs7
    ⟨errors.isEmpty, errors, warns1 ++ warns2⟩

/-- The pre-generation input validation result. -/
structure InputValidation where
  isValid : Bool
  error : Option (List ℕ)

/-- The denylisted mutating verbs of `validateInput` (lowercase). -/
def forbiddenKeywords : List (List ℕ) :=
  [strL ("drop"), strL ("delete"), strL ("truncate"), strL ("update"), strL ("insert"),
   strL ("alter")]

/-- validateInput: reject input longer than 500 units; reject input whose
lowercasing contains a denylisted verb surrounded by spaces
(`includes(' kw ')`) or starts with one (`startsWith(kw)`). -/
def validateInput (input : List ℕ) : InputValidation :=
  if 500 < input.length then ⟨false, some (strL ("Query too long"))⟩
  else
    let lowerInput := lowerStr input
    if forbiddenKeywords.any (fun kw =>
        hasSub (32 :: (kw ++ [32])) lowerInput || List.isPrefixOf kw lowerInput) then
      ⟨false,
       some (strL ("You can only view the information. Editing or making changes is not permitted."))⟩
    else ⟨true, none⟩

/-- Modelled from the claim text of C7 (specification side): input is valid
unless it exceeds the length bound, or a denylisted verb occurs as a
standalone word (word-boundary delimited) or as the sentence-leading
(first whitespace-delimited) token. -/
def specValidInputC7 (input : List ℕ) : Bool :=
  !(decide (500 < input.length)
    || forbiddenKeywords.any (fun kw =>
         hasKwMatch kw false (lowerStr input)
         || (((lowerStr input).dropWhile isSpaceChar).takeWhile (fun c => ! isSpaceChar c)
              == kw)))

/-- C2: If the embedding provider call fails, `findSimilar` returns no-match
(null) without throwing to the caller, and `cacheResult` aborts silently,
leaving the store unchanged (no entry appended, nothing persisted).  Both
operations are total functions of the provider outcome: a provider error is
never surfaced to the caller. -/
theorem provider_failure_never_surfaces (e : String) (st : CacheState) (t : ℝ)
    (question sql : String) (now maxSize : ℕ) :
    findSimilar (Except.error e) st t = none ∧
    cacheResult (Except.error e) question sql now maxSize st = st :=
  ⟨rfl, rfl⟩

/-- C10: with an empty entries list the scan keeps its initial value
(null, -1), and `findSimilar` reports no match (null) for every question and
every threshold (the match branch is never taken since there is no best
match; in particular for any threshold in (0,1], which exceeds -1). -/
theorem findSimilar_empty_cache (q : List ℝ) (t : ℝ) (persisted : List CacheEntry) :
    bestScan q [] = (none, -1) ∧
    findSimilar (Except.ok q) ⟨[], persisted⟩ t = none := by
  refine ⟨rfl, ?_⟩
  simp [findSimilar, findSimilarPure, bestScan]

/-- C8: whenever either argument has zero (squared) norm, `cosineSimilarity`
returns 0 through the explicit guard, so the division by the product of the
norms is unreachable; no division error can arise. -/
theorem cosineSimilarity_zero_norm (a b : List ℝ) (hlen : a.length = b.length)
    (h : normSq a = 0 ∨ normSq b = 0) : cosineSimilarity a b = 0 := by
  have hb : loopSum a.length b b = normSq b := by rw [normSq, hlen]
  unfold cosineSimilarity
  rw [if_pos]
  rw [hb]
  exact h

/-- C8 witness: the zero vector against [1] yields similarity 0. -/
theorem cosineSimilarity_zero_norm_witness :
    normSq [(0 : ℝ)] = 0 ∧ cosineSimilarity [(0 : ℝ)] [(1 : ℝ)] = 0 := by
  have h0 : normSq [(0 : ℝ)] = 0 := by
    simp [normSq, loopSum]
  exact ⟨h0, cosineSimilarity_zero_norm [(0 : ℝ)] [(1 : ℝ)] rfl (Or.inl h0)⟩

/-- C9: cosine similarity is symmetric on vectors of the shared embedding
dimensionality, and every non-zero vector has self-similarity exactly 1. -/
theorem cosineSimilarity_symm_self :
    (∀ a b : List ℝ, a.length = b.length → cosineSimilarity a b = cosineSimilarity b a) ∧
    (∀ a : List ℝ, (∃ x ∈ a, x ≠ 0) → cosineSimilarity a a = 1) := by
  constructor
  · intro a b hlen
    have hn : b.length = a.length := hlen.symm
    unfold cosineSimilarity
    rw [hn]
    have hd : loopSum a.length b a = loopSum a.length a b :=
      Finset.sum_congr rfl fun i _ => mul_comm _ _
    rw [hd]
    by_cases h1 : loopSum a.length a a = 0 ∨ loopSum a.length b b = 0
    · rw [if_pos h1, if_pos (Or.symm h1)]
    · rw [if_neg h1, if_neg fun hc => h1 (Or.symm hc)]
      rw [mul_comm (Real.sqrt _)]
  · intro a ⟨x, hx, hxne⟩
    obtain ⟨i, hi, hix⟩ := List.mem_iff_getElem.mp hx
    have hpos : 0 < loopSum a.length a a := by
      apply Finset.sum_pos'
      · intro j _
        exact mul_self_nonneg _
      · refine ⟨i, Finset.mem_range.mpr hi, ?_⟩
        have hgd : a.getD i 0 = x := by
          rw [List.getD_eq_getElem a 0 hi, hix]
        rw [hgd]
        exact mul_self_pos.mpr hxne
    have hne : loopSum a.length a a ≠ 0 := ne_of_gt hpos
    unfold cosineSimilarity
    rw [if_neg (by intro hc; cases hc with
      | inl h => exact hne h
      | inr h => exact hne h)]
    rw [Real.mul_self_sqrt (le_of_lt hpos)]
    exact div_self hne

theorem firstArgmax_cons (q : List ℝ) (e : CacheEntry) (rest : List CacheEntry) :
    firstArgmax q (e :: rest) = some (pick q e rest) := by
  rw [firstArgmax, pick]
  cases firstArgmax q rest with
  | none => rfl
  | some w =>
    by_cases h : cosineSimilarity q e.embedding < cosineSimilarity q w.embedding
    · simp [h]
    · simp [h]

theorem sim_le_pick (q : List ℝ) (e : CacheEntry) (rest : List CacheEntry) :
    cosineSimilarity q e.embedding ≤ cosineSimilarity q (pick q e rest).embedding := by
  rw [pick]
  cases firstArgmax q rest with
  | none => exact le_refl _
  | some w =>
    by_cases h : cosineSimilarity q e.embedding < cosineSimilarity q w.embedding
    · simp only [if_pos h]
      exact le_of_lt h
    · simp only [if_neg h]
      exact le_refl _

theorem pick_cons (q : List ℝ) (m e : CacheEntry) (rest : List CacheEntry) :
    pick q m (e :: rest)
      = if cosineSimilarity q m.embedding < cosineSimilarity q (pick q e rest).embedding
        then pick q e rest else m := by
  rw [pick, firstArgmax_cons]

theorem pick_cons_lt (q : List ℝ) (m e : CacheEntry) (rest : List CacheEntry)
    (h : cosineSimilarity q m.embedding < cosineSimilarity q e.embedding) :
    pick q m (e :: rest) = pick q e rest := by
  rw [pick_cons, if_pos (lt_of_lt_of_le h (sim_le_pick q e rest))]

theorem pick_cons_ge (q : List ℝ) (m e : CacheEntry) (rest : List CacheEntry)
    (h : ¬ cosineSimilarity q m.embedding < cosineSimilarity q e.embedding) :
    pick q m (e :: rest) = pick q m rest := by
  rw [pick_cons]
  cases hfa : firstArgmax q rest with
  | none =>
    have hg : pick q e rest = e := by rw [pick, hfa]
    have hr : pick q m rest = m := by rw [pick, hfa]
    rw [hg, if_neg h, hr]
  | some w =>
    have hg : pick q e rest
        = if cosineSimilarity q e.embedding < cosineSimilarity q w.embedding then w else e := by
      rw [pick, hfa]
    have hr : pick q m rest
        = if cosineSimilarity q m.embedding < cosineSimilarity q w.embedding then w else m := by
      rw [pick, hfa]
    rw [hg, hr]
    by_cases h2 : cosineSimilarity q e.embedding < cosineSimilarity q w.embedding
    · simp only [if_pos h2]
    · simp only [if_neg h2]
      have hwe : cosineSimilarity q w.embedding ≤ cosineSimilarity q e.embedding := not_lt.mp h2
      have hem : cosineSimilarity q e.embedding ≤ cosineSimilarity q m.embedding := not_lt.mp h
      rw [if_neg h, if_neg (by intro hc; linarith)]

theorem foldl_scanStep_some (q : List ℝ) :
    ∀ (rest : List CacheEntry) (m : CacheEntry),
      rest.foldl (scanStep q) (some m, cosineSimilarity q m.embedding)
        = (some (pick q m rest), cosineSimilarity q (pick q m rest).embedding) := by
  intro rest
  induction rest with
  | nil =>
    intro m
    rw [List.foldl_nil, pick, firstArgmax]
  | cons e rest ih =>
    intro m
    rw [List.foldl_cons]
    by_cases h : cosineSimilarity q m.embedding < cosineSimilarity q e.embedding
    · have hstep : scanStep q (some m, cosineSimilarity q m.embedding) e
          = (some e, cosineSimilarity q e.embedding) := by
        rw [scanStep]
        simp only []
        rw [if_pos h]
      rw [hstep, ih e, pick_cons_lt q m e rest h]
    · have hstep : scanStep q (some m, cosineSimilarity q m.embedding) e
          = (some m, cosineSimilarity q m.embedding) := by
        rw [scanStep]
        simp only []
        rw [if_neg h]
      rw [hstep, ih m, pick_cons_ge q m e rest h]

theorem bestScan_cons (q : List ℝ) (e : CacheEntry) (rest : List CacheEntry) :
    bestScan q (e :: rest)
      = if -1 < cosineSimilarity q e.embedding then
          (some (pick q e rest), cosineSimilarity q (pick q e rest).embedding)
        else bestScan q rest := by
  rw [bestScan, List.foldl_cons]
  by_cases h : (-1 : ℝ) < cosineSimilarity q e.embedding
  · have hstep : scanStep q (none, -1) e = (some e, cosineSimilarity q e.embedding) := by
      rw [scanStep]
      simp only []
      rw [if_pos h]
    rw [hstep, foldl_scanStep_some q rest e, if_pos h]
  · have hstep : scanStep q (none, -1) e = (none, -1) := by
      rw [scanStep]
      simp only []
      rw [if_neg h]
    rw [hstep, if_neg h]
    rfl

theorem findSimilarPure_eq (q : List ℝ) (cache : List CacheEntry) (t : ℝ) :
    findSimilarPure q cache t
      = if t ≤ (bestScan q cache).2 ∧ (bestScan q cache).1.isSome = true
        then Option.map (fun e => e.sql) (bestScan q cache).1 else none := by
  rw [findSimilarPure]

theorem specLookup_cons (q : List ℝ) (e : CacheEntry) (rest : List CacheEntry) (t : ℝ) :
    specLookup q (e :: rest) t
      = if t ≤ cosineSimilarity q (pick q e rest).embedding
        then some (pick q e rest).sql else none := by
  rw [specLookup, firstArgmax_cons]

/-- C1: `findSimilar` scans all entries, selects the entry with the maximum
cosine similarity to the question's embedding (ties broken by the
first-encountered entry in storage order), and returns that entry's sql if
and only if the maximum similarity reaches `similarityThreshold` (inclusive
boundary); otherwise it reports no match.  The threshold is positive per its
documented range (0, 1]. -/
theorem findSimilar_max_inclusive (q : List ℝ) (cache persisted : List CacheEntry)
    (t : ℝ) (ht : 0 < t) :
    findSimilar (Except.ok q) ⟨cache, persisted⟩ t = specLookup q cache t := by
  show findSimilarPure q cache t = specLookup q cache t
  induction cache with
  | nil => simp [findSimilarPure_eq, bestScan, specLookup, firstArgmax]
  | cons e rest ih =>
    by_cases h : (-1 : ℝ) < cosineSimilarity q e.embedding
    · rw [findSimilarPure_eq, specLookup_cons, bestScan_cons, if_pos h]
      by_cases h2 : t ≤ cosineSimilarity q (pick q e rest).embedding
      · simp [h2]
      · simp [h2]
    · have hscan : bestScan q (e :: rest) = bestScan q rest := by
        rw [bestScan_cons, if_neg h]
      have hpure : findSimilarPure q (e :: rest) t = findSimilarPure q rest t := by
        rw [findSimilarPure_eq, findSimilarPure_eq, hscan]
      have hesim : cosineSimilarity q e.embedding ≤ -1 := not_lt.mp h
      have hspec : specLookup q (e :: rest) t = specLookup q rest t := by
        rw [specLookup_cons, specLookup]
        cases hfa : firstArgmax q rest with
        | none =>
          have hg : pick q e rest = e := by rw [pick, hfa]
          rw [hg, if_neg (by intro hc; linarith)]
        | some w =>
          have hg : pick q e rest
              = if cosineSimilarity q e.embedding < cosineSimilarity q w.embedding
                then w else e := by
            rw [pick, hfa]
          rw [hg]
          by_cases h2 : cosineSimilarity q e.embedding < cosineSimilarity q w.embedding
          · simp only [if_pos h2]
          · simp only [if_neg h2]
            have hw : cosineSimilarity q w.embedding ≤ -1 :=
              le_trans (not_lt.mp h2) hesim
            rw [if_neg (by intro hc; linarith), if_neg (by intro hc; linarith)]
      rw [hpure, ih, ← hspec, hspec]

theorem cacheResult_ok_overflow (emb : List ℝ) (question sql : String) (now maxSize : ℕ)
    (st : CacheState)
    (h : maxSize < (st.cache ++ [(⟨question, emb, sql, now⟩ : CacheEntry)]).length) :
    cacheResult (Except.ok emb) question sql now maxSize st
      = ⟨(List.insertionSort tsLe (st.cache ++ [⟨question, emb, sql, now⟩])).tail,
         (List.insertionSort tsLe (st.cache ++ [⟨question, emb, sql, now⟩])).tail⟩ := by
  simp only [cacheResult]
  rw [if_pos h]

theorem cacheResult_ok_fit (emb : List ℝ) (question sql : String) (now maxSize : ℕ)
    (st : CacheState)
    (h : ¬ maxSize < (st.cache ++ [(⟨question, emb, sql, now⟩ : CacheEntry)]).length) :
    cacheResult (Except.ok emb) question sql now maxSize st
      = ⟨st.cache ++ [⟨question, emb, sql, now⟩], st.cache ++ [⟨question, emb, sql, now⟩]⟩ := by
  simp only [cacheResult]
  rw [if_neg h]

theorem cacheResult_suffix_step (maxSize : ℕ) (A : List CacheEntry) (e : CacheEntry)
    (p : List CacheEntry)
    (hs : List.Pairwise (fun a b => a.timestamp < b.timestamp) (A ++ [e])) :
    (cacheResult (Except.ok e.embedding) e.question e.sql e.timestamp maxSize
        ⟨A.drop (A.length - maxSize), p⟩).cache
      = (A ++ [e]).drop (A.length + 1 - maxSize) := by
  have hEe : (⟨e.question, e.embedding, e.sql, e.timestamp⟩ : CacheEntry) = e := rfl
  have hd_le : A.length - maxSize ≤ A.length := Nat.sub_le _ _
  have hlend : (A.drop (A.length - maxSize)).length = A.length - (A.length - maxSize) :=
    List.length_drop _ _
  have hsub : List.Sublist (A.drop (A.length - maxSize) ++ [e]) (A ++ [e]) :=
    List.Sublist.append (List.drop_sublist _ _) (List.Sublist.refl _)
  have hlt : List.Pairwise (fun a b => a.timestamp < b.timestamp)
      (A.drop (A.length - maxSize) ++ [e]) := List.Pairwise.sublist hsub hs
  have hsorted : List.Sorted tsLe (A.drop (A.length - maxSize) ++ [e]) :=
    List.Pairwise.imp (fun h => Nat.le_of_lt h) hlt
  by_cases hov : maxSize < (A.drop (A.length - maxSize) ++ [e]).length
  · rw [cacheResult_ok_overflow _ _ _ _ _ _ (by simpa only [hEe] using hov)]
    simp only [hEe]
    rw [List.Sorted.insertionSort_eq hsorted]
    rw [← List.drop_append_of_le_length hd_le, List.tail_drop]
    have hnum : A.length - maxSize + 1 = A.length + 1 - maxSize := by
      have hov2 : maxSize < A.length - (A.length - maxSize) + 1 := by
        simpa [hlend] using hov
      omega
    rw [hnum]
  · rw [cacheResult_ok_fit _ _ _ _ _ _ (by simpa only [hEe] using hov)]
    simp only [hEe]
    have hov2 : A.length - (A.length - maxSize) + 1 ≤ maxSize := by
      have := not_lt.mp hov
      simpa [hlend] using this
    have hd0 : A.length - maxSize = 0 := by omega
    have hn0 : A.length + 1 - maxSize = 0 := by omega
    rw [hd0, hn0, List.drop_zero, List.drop_zero]

/-- C3: capacity invariant and eviction policy of `cacheResult`.  First
conjunct: whenever an insertion overflows the capacity, the store retains,
up to order, exactly the grown list minus one entry of minimum timestamp
(the single oldest entry is evicted).  Second conjunct: starting from a
store within capacity whose entries, followed by the inserted ops, carry
strictly increasing timestamps, after each of the first k calls the store
holds exactly the `maxSize` most recent entries (the suffix of the combined
timestamp-ordered list), and in particular never exceeds `maxSize`. -/
theorem cacheResult_capacity_and_eviction :
    (∀ (emb : List ℝ) (question sql : String) (now maxSize : ℕ) (st : CacheState),
        maxSize < (st.cache ++ [(⟨question, emb, sql, now⟩ : CacheEntry)]).length →
        ∃ m ∈ st.cache ++ [(⟨question, emb, sql, now⟩ : CacheEntry)],
          (∀ x ∈ st.cache ++ [(⟨question, emb, sql, now⟩ : CacheEntry)],
              m.timestamp ≤ x.timestamp) ∧
          List.Perm (st.cache ++ [(⟨question, emb, sql, now⟩ : CacheEntry)])
            (m :: (cacheResult (Except.ok emb) question sql now maxSize st).cache)) ∧
    (∀ (maxSize : ℕ) (c0 p0 ops : List CacheEntry),
        c0.length ≤ maxSize →
        List.Pairwise (fun a b => a.timestamp < b.timestamp) (c0 ++ ops) →
        ∀ k, k ≤ ops.length →
          (runInserts maxSize ⟨c0, p0⟩ (ops.take k)).cache
              = (c0 ++ ops.take k).drop (c0.length + k - maxSize) ∧
          (runInserts maxSize ⟨c0, p0⟩ (ops.take k)).cache.length ≤ maxSize) := by
  constructor
  · intro emb question sql now maxSize st hov
    rw [cacheResult_ok_overflow _ _ _ _ _ _ hov]
    have hperm : List.Perm
        (List.insertionSort tsLe (st.cache ++ [(⟨question, emb, sql, now⟩ : CacheEntry)]))
        (st.cache ++ [(⟨question, emb, sql, now⟩ : CacheEntry)]) :=
      List.perm_insertionSort tsLe _
    have hsorted : List.Sorted tsLe
        (List.insertionSort tsLe (st.cache ++ [(⟨question, emb, sql, now⟩ : CacheEntry)])) :=
      List.sorted_insertionSort tsLe _
    cases hsrt : List.insertionSort tsLe
        (st.cache ++ [(⟨question, emb, sql, now⟩ : CacheEntry)]) with
    | nil =>
      have hlen := hperm.length_eq
      rw [hsrt] at hlen
      simp at hlen
    | cons m tail =>
      rw [hsrt] at hperm hsorted
      refine ⟨m, hperm.mem_iff.mp (List.mem_cons_self m tail), ?_, ?_⟩
      · intro x hx
        have hx2 : x ∈ m :: tail := hperm.symm.mem_iff.mp hx
        cases hx2 with
        | head => exact le_refl _
        | tail _ hx3 => exact List.rel_of_sorted_cons hsorted x hx3
      · exact hperm.symm
  · intro maxSize c0 p0 ops h1 hch k
    induction k with
    | zero =>
      intro _
      constructor
      · have hz : c0.length + 0 - maxSize = 0 := by omega
        have hz2 : c0.length - maxSize = 0 := by omega
        simp [runInserts, hz, hz2]
      · simpa [runInserts] using h1
    | succ k ihk =>
      intro hk1
      have hk : k ≤ ops.length := Nat.le_of_succ_le hk1
      have hklt : k < ops.length := hk1
      obtain ⟨ihc, _⟩ := ihk hk
      have htake : ops.take (k + 1) = ops.take k ++ [ops[k]] := by
        rw [List.take_succ, List.getElem?_eq_getElem hklt]
        rfl
      have hrun : runInserts maxSize ⟨c0, p0⟩ (ops.take (k + 1))
          = cacheResult (Except.ok (ops[k]).embedding) (ops[k]).question (ops[k]).sql
              (ops[k]).timestamp maxSize (runInserts maxSize ⟨c0, p0⟩ (ops.take k)) := by
        rw [htake, runInserts, List.foldl_append]
        rfl
      have hlenA : (c0 ++ ops.take k).length = c0.length + k := by
        rw [List.length_append, List.length_take]
        omega
      have hstk : runInserts maxSize ⟨c0, p0⟩ (ops.take k)
          = ⟨(c0 ++ ops.take k).drop ((c0 ++ ops.take k).length - maxSize),
             (runInserts maxSize ⟨c0, p0⟩ (ops.take k)).persisted⟩ := by
        rw [hlenA, ← ihc]
      have hpair : List.Pairwise (fun a b => a.timestamp < b.timestamp)
          ((c0 ++ ops.take k) ++ [ops[k]]) := by
        have hsub : List.Sublist ((c0 ++ ops.take k) ++ [ops[k]]) (c0 ++ ops) := by
          rw [List.append_assoc, ← htake]
          exact List.Sublist.append (List.Sublist.refl c0) (List.take_sublist _ _)
        exact List.Pairwise.sublist hsub hch
      have hcache : (runInserts maxSize ⟨c0, p0⟩ (ops.take (k + 1))).cache
          = (c0 ++ ops.take (k + 1)).drop (c0.length + (k + 1) - maxSize) := by
        rw [hrun, hstk, cacheResult_suffix_step maxSize (c0 ++ ops.take k) (ops[k]) _ hpair]
        rw [List.append_assoc, ← htake, hlenA]
        have hnum : c0.length + k + 1 - maxSize = c0.length + (k + 1) - maxSize := by omega
        rw [hnum]
      refine ⟨hcache, ?_⟩
      rw [hcache, List.length_drop, List.length_append, List.length_take]
      omega

/-- C9 witness: symmetry at [1,2] vs [3,4], and self-similarity 1 at [5]. -/
theorem cosineSimilarity_symm_self_witness :
    cosineSimilarity [(1 : ℝ), 2] [(3 : ℝ), 4] = cosineSimilarity [(3 : ℝ), 4] [(1 : ℝ), 2] ∧
    cosineSimilarity [(5 : ℝ)] [(5 : ℝ)] = 1 :=
  ⟨cosineSimilarity_symm_self.1 _ _ rfl,
   cosineSimilarity_symm_self.2 [(5 : ℝ)] ⟨5, by simp, by norm_num⟩⟩

/-- C1 witness: a one-entry store whose entry matches the query exactly is
reported at threshold 0.9. -/
theorem findSimilar_max_inclusive_witness :
    findSimilar (Except.ok [(1 : ℝ)]) ⟨[sampleEntry], [sampleEntry]⟩ (9 / 10)
      = some ("SELECT 1") := by
  have h := findSimilar_max_inclusive [(1 : ℝ)] [sampleEntry] [sampleEntry] (9 / 10)
    (by norm_num)
  rw [h]
  have hpick : pick [(1 : ℝ)] sampleEntry [] = sampleEntry := by
    rw [pick, firstArgmax]
  have hcos : cosineSimilarity [(1 : ℝ)] sampleEntry.embedding = 1 := by
    show cosineSimilarity [(1 : ℝ)] [(1 : ℝ)] = 1
    have hl : loopSum 1 [(1 : ℝ)] [(1 : ℝ)] = 1 := by simp [loopSum]
    rw [cosineSimilarity]
    simp only [List.length_singleton, hl]
    rw [if_neg (by norm_num), Real.sqrt_one]
    norm_num
  rw [specLookup_cons, hpick, hcos, if_pos (by norm_num)]
  rfl

/-- C3 witness: with capacity 1, inserting `entB` into a store holding
`entA` evicts the older entry and keeps exactly the most recent one. -/
theorem cacheResult_capacity_and_eviction_witness :
    (∃ m ∈ [entA, entB],
        (∀ x ∈ [entA, entB], m.timestamp ≤ x.timestamp) ∧
        List.Perm [entA, entB]
          (m :: (cacheResult (Except.ok entB.embedding) entB.question entB.sql
              entB.timestamp 1 ⟨[entA], [entA]⟩).cache)) ∧
    (runInserts 1 ⟨[], []⟩ [entA, entB]).cache = [entB] ∧
    (runInserts 1 ⟨[], []⟩ [entA, entB]).cache.length ≤ 1 := by
  constructor
  · have h := cacheResult_capacity_and_eviction.1 entB.embedding entB.question entB.sql
      entB.timestamp 1 ⟨[entA], [entA]⟩ (by simp)
    simpa [entA, entB] using h
  · have h := cacheResult_capacity_and_eviction.2 1 [] [] [entA, entB] (by simp)
      (by norm_num [entA, entB, List.pairwise_cons]) 2 (by simp)
    simpa [entA, entB] using h

theorem jsToLower_jsToLower (c : ℕ) : jsToLower (jsToLower c) = jsToLower c := by
  simp only [jsToLower]
  split_ifs <;> omega

theorem jsToLower_jsToUpper (c : ℕ) : jsToLower (jsToUpper c) = jsToLower c := by
  simp only [jsToLower, jsToUpper]
  split_ifs <;> omega

theorem jsToUpper_jsToLower (c : ℕ) : jsToUpper (jsToLower c) = jsToUpper c := by
  simp only [jsToLower, jsToUpper]
  split_ifs <;> omega

theorem jsToUpper_jsToUpper (c : ℕ) : jsToUpper (jsToUpper c) = jsToUpper c := by
  simp only [jsToUpper]
  split_ifs <;> omega

theorem isWordChar_lower (c : ℕ) : isWordChar (jsToLower c) = isWordChar c := by
  simp only [isWordChar, jsToLower]
  split_ifs <;> (rw [decide_eq_decide] <;> omega)

theorem isSpaceChar_lower (c : ℕ) : isSpaceChar (jsToLower c) = isSpaceChar c := by
  simp only [isSpaceChar, jsToLower]
  split_ifs <;> (rw [decide_eq_decide] <;> omega)

theorem isSepChar_lower (c : ℕ) : isSepChar (jsToLower c) = isSepChar c := by
  simp only [isSepChar, isSpaceChar_lower]
  congr 1
  simp only [jsToLower]
  split_ifs <;> (rw [decide_eq_decide] <;> omega)

theorem isDigitChar_lower (c : ℕ) : isDigitChar (jsToLower c) = isDigitChar c := by
  simp only [isDigitChar, jsToLower]
  split_ifs <;> (rw [decide_eq_decide] <;> omega)

theorem map_comp_eq (f g h : ℕ → ℕ) (hfg : ∀ c, f (g c) = h c) :
    ∀ s : List ℕ, (s.map g).map f = s.map h := by
  intro s
  induction s with
  | nil => rfl
  | cons c cs ih =>
    simp only [List.map_cons]
    rw [hfg, ih]

theorem lowerStr_lowerStr (s : List ℕ) : lowerStr (lowerStr s) = lowerStr s :=
  map_comp_eq _ _ _ jsToLower_jsToLower s

theorem lowerStr_upperStr (s : List ℕ) : lowerStr (upperStr s) = lowerStr s :=
  map_comp_eq _ _ _ jsToLower_jsToUpper s

theorem upperStr_lowerStr (s : List ℕ) : upperStr (lowerStr s) = upperStr s :=
  map_comp_eq _ _ _ jsToUpper_jsToLower s

theorem lowerStr_applyMask (f : ℕ → ℕ) (hf : ∀ c, jsToLower (f c) = jsToLower c) :
    ∀ (m : List Bool) (s : List ℕ), lowerStr (applyMask f m s) = lowerStr (s.take m.length) := by
  intro m
  induction m with
  | nil => intro s; rfl
  | cons b bs ih =>
    intro s
    cases s with
    | nil => rfl
    | cons c cs =>
      show jsToLower (if b then f c else c) :: lowerStr (applyMask f bs cs)
        = jsToLower c :: lowerStr (cs.take bs.length)
      rw [ih cs]
      cases b
      · rfl
      · rw [if_pos rfl, hf]

theorem maskKwGo_length (kw : List ℕ) :
    ∀ (l : List ℕ) (skip : ℕ) (w : Bool), (maskKwGo kw skip w l).length = l.length := by
  intro l
  induction l with
  | nil => intro skip w; cases skip <;> rfl
  | cons c cs ih =>
    intro skip w
    cases skip with
    | zero =>
      simp only [maskKwGo]
      split <;> simp [ih]
    | succ k => simp [maskKwGo, ih]

theorem maskP2Go_length :
    ∀ (l : List ℕ) (skip : ℕ) (b : Bool), (maskP2Go skip b l).length = l.length := by
  intro l
  induction l with
  | nil => intro skip b; cases skip <;> rfl
  | cons c cs ih =>
    intro skip b
    cases skip with
    | zero =>
      simp only [maskP2Go]
      split <;> simp [ih]
    | succ k => simp [maskP2Go, ih]

theorem applyMask_cons (f : ℕ → ℕ) (b : Bool) (m : List Bool) (c : ℕ) (s : List ℕ) :
    applyMask f (b :: m) (c :: s) = (if b then f c else c) :: applyMask f m s := rfl

theorem applyMask_false_all (f : ℕ → ℕ) :
    ∀ s : List ℕ, applyMask f (List.replicate s.length false) s = s := by
  intro s
  induction s with
  | nil => rfl
  | cons c cs ih =>
    show (if false then f c else c) :: applyMask f (List.replicate cs.length false) cs = c :: cs
    rw [if_neg (by simp), ih]

theorem applyMask_true_run (f : ℕ → ℕ) :
    ∀ (k : ℕ) (m : List Bool) (s : List ℕ), k ≤ s.length →
      applyMask f (List.replicate k true ++ m) s = (s.take k).map f ++ applyMask f m (s.drop k) := by
  intro k
  induction k with
  | zero => intro m s _; simp
  | succ k ih =>
    intro m s hk
    cases s with
    | nil => simp at hk
    | cons c cs =>
      have hk2 : k ≤ cs.length := by simpa using hk
      show (if true then f c else c) :: applyMask f (List.replicate k true ++ m) cs = _
      rw [if_pos rfl, ih m cs hk2]
      rfl

theorem wAfter_cons (w : Bool) (c : ℕ) (l : List ℕ) :
    wAfter w (c :: l) = wAfter (isWordChar c) l := rfl

theorem wAfter_lower (w : Bool) : ∀ l : List ℕ, wAfter w (lowerStr l) = wAfter w l := by
  intro l
  induction l generalizing w with
  | nil => rfl
  | cons c cs ih =>
    show wAfter (isWordChar (jsToLower c)) (lowerStr cs) = wAfter (isWordChar c) cs
    rw [isWordChar_lower, ih]

theorem replaceKwGo_skip (kw : List ℕ) :
    ∀ (k : ℕ) (s : List ℕ) (w : Bool),
      replaceKwGo kw k w s = replaceKwGo kw 0 (wAfter w (s.take k)) (s.drop k) := by
  intro k
  induction k with
  | zero => intro s w; simp [wAfter]
  | succ k ih =>
    intro s w
    cases s with
    | nil => rfl
    | cons c cs =>
      show replaceKwGo kw k (isWordChar c) cs = _
      rw [ih cs (isWordChar c)]
      rfl

theorem maskKwGo_skip (kw : List ℕ) :
    ∀ (k : ℕ) (s : List ℕ) (w : Bool),
      maskKwGo kw k w s
        = List.replicate (min k s.length) true
            ++ maskKwGo kw 0 (wAfter w (s.take k)) (s.drop k) := by
  intro k
  induction k with
  | zero => intro s w; simp [wAfter]
  | succ k ih =>
    intro s w
    cases s with
    | nil => simp [maskKwGo]
    | cons c cs =>
      show true :: maskKwGo kw k (isWordChar c) cs = _
      rw [ih cs (isWordChar c)]
      simp only [List.length_cons, Nat.succ_min_succ, List.replicate_succ, List.cons_append]
      rfl

theorem pass2Go_skip :
    ∀ (k : ℕ) (s : List ℕ), pass2Go k s = pass2Go 0 (s.drop k) := by
  intro k
  induction k with
  | zero => intro s; simp
  | succ k ih =>
    intro s
    cases s with
    | nil => rfl
    | cons c cs =>
      show pass2Go k cs = _
      rw [ih cs]
      rfl

theorem maskP2Go_skip :
    ∀ (k : ℕ) (s : List ℕ) (b : Bool),
      maskP2Go k b s = List.replicate (min k s.length) b ++ maskP2Go 0 b (s.drop k) := by
  intro k
  induction k with
  | zero => intro s b; simp
  | succ k ih =>
    intro s b
    cases s with
    | nil => simp [maskP2Go]
    | cons c cs =>
      show b :: maskP2Go k b cs = _
      rw [ih cs b]
      simp only [List.length_cons, Nat.succ_min_succ, List.replicate_succ, List.cons_append]
      rfl

theorem maskP2Go_zero_bit : ∀ (l : List ℕ) (b b2 : Bool), maskP2Go 0 b l = maskP2Go 0 b2 l := by
  intro l
  induction l with
  | nil => intro b b2; rfl
  | cons c cs ih =>
    intro b b2
    simp only [maskP2Go]
    split
    · rw [ih b b2]
    · rfl

theorem lowerStr_cons (c : ℕ) (cs : List ℕ) :
    lowerStr (c :: cs) = jsToLower c :: lowerStr cs := rfl

theorem lowerStr_take (s : List ℕ) (n : ℕ) : (lowerStr s).take n = lowerStr (s.take n) :=
  (List.map_take jsToLower s n).symm

theorem lowerStr_drop (s : List ℕ) (n : ℕ) : (lowerStr s).drop n = lowerStr (s.drop n) :=
  (List.map_drop jsToLower s n).symm

theorem matchesAt_lower (kw s : List ℕ) : matchesAt kw (lowerStr s) = matchesAt kw s := by
  rw [matchesAt, matchesAt]
  have h1 : ((lowerStr s).take kw.length).map jsToLower
      = (s.take kw.length).map jsToLower := by
    rw [lowerStr_take]
    exact map_comp_eq _ _ _ jsToLower_jsToLower _
  rw [h1, lowerStr_drop]
  cases hds : s.drop kw.length with
  | nil => rfl
  | cons d ds =>
    rw [lowerStr_cons]
    simp only [isWordChar_lower]

theorem matchesAt_parts (kw s : List ℕ) (h : matchesAt kw s = true) :
    kw ≠ [] ∧ (s.take kw.length).map jsToLower = kw.map jsToLower ∧ kw.length ≤ s.length := by
  rw [matchesAt] at h
  simp only [Bool.and_eq_true, beq_iff_eq, Bool.not_eq_eq_eq_not, Bool.not_true] at h
  obtain ⟨⟨hne, heq⟩, _⟩ := h
  have hne2 : kw ≠ [] := by
    intro hk
    rw [hk] at hne
    simp at hne
  refine ⟨hne2, heq, ?_⟩
  have hlen := congrArg List.length heq
  simp only [List.length_map, List.length_take] at hlen
  omega

theorem matchesAt_upper_emit (kw s : List ℕ) (hkw : upperStr kw = kw)
    (h : matchesAt kw s = true) : upperStr (s.take kw.length) = kw := by
  obtain ⟨_, heq, _⟩ := matchesAt_parts kw s h
  have h2 : upperStr (lowerStr (s.take kw.length)) = upperStr (lowerStr kw) := by
    rw [lowerStr, lowerStr, heq]
  rw [upperStr_lowerStr, upperStr_lowerStr] at h2
  rw [h2, hkw]

theorem replaceKw_factor (kw : List ℕ) (hkw : upperStr kw = kw) :
    ∀ (n : ℕ) (s : List ℕ), s.length ≤ n → ∀ (w : Bool),
      replaceKwGo kw 0 w s = applyMask jsToUpper (maskKwGo kw 0 w (lowerStr s)) s := by
  intro n
  induction n with
  | zero =>
    intro s hs w
    have hnil : s = [] := List.length_eq_zero.mp (Nat.le_zero.mp hs)
    subst hnil
    rfl
  | succ n ih =>
    intro s hs w
    cases s with
    | nil => rfl
    | cons c cs =>
      have hcs : cs.length ≤ n := by
        simp only [List.length_cons] at hs
        omega
      have hmt : matchesAt kw (jsToLower c :: lowerStr cs) = matchesAt kw (c :: cs) := by
        rw [← lowerStr_cons, matchesAt_lower]
      have hL : replaceKwGo kw 0 w (c :: cs)
          = if !w && matchesAt kw (c :: cs) then
              kw ++ replaceKwGo kw (kw.length - 1) (isWordChar c) cs
            else c :: replaceKwGo kw 0 (isWordChar c) cs := rfl
      have hM : maskKwGo kw 0 w (lowerStr (c :: cs))
          = if !w && matchesAt kw (c :: cs) then
              true :: maskKwGo kw (kw.length - 1) (isWordChar c) (lowerStr cs)
            else false :: maskKwGo kw 0 (isWordChar c) (lowerStr cs) := by
        rw [lowerStr_cons]
        show (if !w && matchesAt kw (jsToLower c :: lowerStr cs) then
            true :: maskKwGo kw (kw.length - 1) (isWordChar (jsToLower c)) (lowerStr cs)
          else false :: maskKwGo kw 0 (isWordChar (jsToLower c)) (lowerStr cs)) = _
        rw [hmt, isWordChar_lower]
      rw [hL, hM]
      by_cases hm : (!w && matchesAt kw (c :: cs)) = true
      · rw [if_pos hm, if_pos hm]
        have hmat : matchesAt kw (c :: cs) = true := by
          rcases Bool.and_eq_true_iff.mp hm with ⟨_, h2⟩
          exact h2
        obtain ⟨hne, _, hlen⟩ := matchesAt_parts kw (c :: cs) hmat
        have hkpos : 1 ≤ kw.length := by
          cases hkl : kw with
          | nil => exact absurd hkl hne
          | cons a l => simp
        have hlen2 : kw.length - 1 ≤ cs.length := by
          simp only [List.length_cons] at hlen
          omega
        rw [replaceKwGo_skip, maskKwGo_skip]
        have hminlen : min (kw.length - 1) (lowerStr cs).length = kw.length - 1 := by
          simp only [lowerStr, List.length_map]
          omega
        rw [hminlen, lowerStr_take, lowerStr_drop, wAfter_lower]
        rw [applyMask_cons, if_pos rfl]
        rw [applyMask_true_run jsToUpper (kw.length - 1) _ cs hlen2]
        rw [ih (cs.drop (kw.length - 1)) (by rw [List.length_drop]; omega)]
        have hemit : upperStr ((c :: cs).take kw.length) = kw :=
          matchesAt_upper_emit kw (c :: cs) hkw hmat
        have htk : (c :: cs).take kw.length = c :: cs.take (kw.length - 1) := by
          obtain ⟨j, hj⟩ : ∃ j, kw.length = j + 1 := ⟨kw.length - 1, by omega⟩
          rw [hj]
          simp [List.take_succ_cons]
        rw [htk] at hemit
        rw [upperStr, List.map_cons] at hemit
        rw [← List.cons_append, hemit]
      · rw [if_neg hm, if_neg hm, applyMask_cons, if_neg (by simp)]
        rw [ih cs hcs]

theorem replaceKw_factor_eq (kw : List ℕ) (hkw : upperStr kw = kw) (s : List ℕ) :
    replaceKw kw s = applyMask jsToUpper (kwMask kw (lowerStr s)) s :=
  replaceKw_factor kw hkw s.length s (le_refl _) false

theorem kwMask_length (kw l : List ℕ) : (kwMask kw l).length = l.length :=
  maskKwGo_length kw l 0 false

theorem orMask_length (a b : List Bool) : (orMask a b).length = min a.length b.length :=
  List.length_zipWith _ _ _

theorem applyMask_compose (f : ℕ → ℕ) (hf : ∀ c, f (f c) = f c) :
    ∀ (s : List ℕ) (m1 m2 : List Bool), m1.length = s.length →
      applyMask f m2 (applyMask f m1 s) = applyMask f (orMask m1 m2) s := by
  intro s
  induction s with
  | nil =>
    intro m1 m2 _
    cases m1 <;> cases m2 <;> rfl
  | cons c cs ih =>
    intro m1 m2 hm1
    cases m1 with
    | nil => simp at hm1
    | cons b1 bs1 =>
      cases m2 with
      | nil => rfl
      | cons b2 bs2 =>
        have hbs1 : bs1.length = cs.length := by simpa using hm1
        show (if b2 then f (if b1 then f c else c) else (if b1 then f c else c))
            :: applyMask f bs2 (applyMask f bs1 cs)
          = (if (b1 || b2) then f c else c) :: applyMask f (orMask bs1 bs2) cs
        rw [ih bs1 bs2 hbs1]
        cases b1 <;> cases b2 <;> simp [hf]

theorem lowerStr_applyMask_full (f : ℕ → ℕ) (hf : ∀ c, jsToLower (f c) = jsToLower c)
    (m : List Bool) (s : List ℕ) (hm : m.length = s.length) :
    lowerStr (applyMask f m s) = lowerStr s := by
  rw [lowerStr_applyMask f hf m s, hm, List.take_length]

theorem sqlKeywords_upper : ∀ kw ∈ sqlKeywords, upperStr kw = kw := by decide

theorem foldl_replace_factor :
    ∀ (kws : List (List ℕ)), (∀ kw ∈ kws, upperStr kw = kw) →
    ∀ (m : List Bool) (s : List ℕ), m.length = s.length →
      kws.foldl (fun acc kw => replaceKw kw acc) (applyMask jsToUpper m s)
        = applyMask jsToUpper
            (kws.foldl (fun m2 kw => orMask m2 (kwMask kw (lowerStr s))) m) s := by
  intro kws
  induction kws with
  | nil => intro _ m s _; rfl
  | cons kw kws ih =>
    intro hup m s hm
    have hkw : upperStr kw = kw := hup kw (List.mem_cons_self kw kws)
    have hlow : lowerStr (applyMask jsToUpper m s) = lowerStr s :=
      lowerStr_applyMask_full jsToUpper jsToLower_jsToUpper m s hm
    have hstep : replaceKw kw (applyMask jsToUpper m s)
        = applyMask jsToUpper (orMask m (kwMask kw (lowerStr s))) s := by
      rw [replaceKw_factor_eq kw hkw, hlow]
      exact applyMask_compose jsToUpper jsToUpper_jsToUpper s m _ hm
    rw [List.foldl_cons, List.foldl_cons, hstep]
    apply ih (fun k hk => hup k (List.mem_cons_of_mem kw hk))
    rw [orMask_length, kwMask_length, lowerStr, List.length_map, hm]
    simp

theorem pass1Mask_foldl (l : List ℕ) :
    pass1Mask l = sqlKeywords.foldl (fun m2 kw => orMask m2 (kwMask kw l))
      (List.replicate l.length false) := rfl

theorem pass1_factor (s : List ℕ) :
    pass1 s = applyMask jsToUpper (pass1Mask (lowerStr s)) s := by
  have h0 : s = applyMask jsToUpper (List.replicate s.length false) s :=
    (applyMask_false_all jsToUpper s).symm
  rw [pass1]
  conv_lhs => rw [h0]
  rw [foldl_replace_factor sqlKeywords sqlKeywords_upper (List.replicate s.length false) s
    (by simp)]
  rw [pass1Mask_foldl]
  have hlen : (lowerStr s).length = s.length := by simp [lowerStr]
  rw [hlen]

theorem pass1Mask_length (l : List ℕ) : (pass1Mask l).length = l.length := by
  rw [pass1Mask_foldl]
  have hgen : ∀ (kws : List (List ℕ)) (m : List Bool), m.length = l.length →
      (kws.foldl (fun m2 kw => orMask m2 (kwMask kw l)) m).length = l.length := by
    intro kws
    induction kws with
    | nil => intro m hm; exact hm
    | cons kw kws ih =>
      intro m hm
      rw [List.foldl_cons]
      apply ih
      rw [orMask_length, kwMask_length, hm]
      simp
  exact hgen sqlKeywords _ (by simp)

theorem lowerStr_pass1 (s : List ℕ) : lowerStr (pass1 s) = lowerStr s := by
  rw [pass1_factor]
  exact lowerStr_applyMask_full jsToUpper jsToLower_jsToUpper _ s
    (by rw [pass1Mask_length]; simp [lowerStr])

theorem dropWhile_of_all_false (p : ℕ → Bool) :
    ∀ l : List ℕ, (∀ c ∈ l, p c = false) → l.dropWhile p = l := by
  intro l h
  cases l with
  | nil => rfl
  | cons c cs =>
    rw [List.dropWhile_cons]
    simp [h c (List.mem_cons_self c cs)]

theorem jsTrim_sep_free (t : List ℕ) (h : ∀ c ∈ t, isSepChar c = false) : jsTrim t = t := by
  have hsp : ∀ c ∈ t, isSpaceChar c = false := by
    intro c hc
    have h2 := h c hc
    simp only [isSepChar, Bool.or_eq_false_iff] at h2
    exact h2.1
  rw [jsTrim, dropWhile_of_all_false _ t hsp]
  rw [dropWhile_of_all_false _ t.reverse (by intro c hc; exact hsp c (List.mem_reverse.mp hc))]
  rw [List.reverse_reverse]

theorem isPunctTok_sep_free (t : List ℕ) (h : ∀ c ∈ t, isSepChar c = false) :
    isPunctTok t = false := by
  cases t with
  | nil => rfl
  | cons c cs =>
    cases cs with
    | nil =>
      have h2 := h c (List.mem_cons_self c [])
      simp only [isSepChar, Bool.or_eq_false_iff] at h2
      exact h2.2
    | cons d ds => rfl

theorem processToken_eq (t : List ℕ) (hne : t ≠ []) (h : ∀ c ∈ t, isSepChar c = false) :
    processToken t = if tokenLowerBit t then lowerStr t else t := by
  have htr : jsTrim t = t := jsTrim_sep_free t h
  have hpu : isPunctTok t = false := isPunctTok_sep_free t h
  have hem : t.isEmpty = false := by
    cases t with
    | nil => exact absurd rfl hne
    | cons a l => rfl
  simp only [processToken, tokenLowerBit, htr, hpu, hem, Bool.false_or, Bool.or_false]
  split_ifs <;> simp_all

theorem jsToLower_eq_low_const (c k : ℕ) (hk : k < 65) : (jsToLower c = k) ↔ (c = k) := by
  simp only [jsToLower]
  split_ifs <;> omega

theorem isPunctTok_lower (t : List ℕ) : isPunctTok (lowerStr t) = isPunctTok t := by
  cases t with
  | nil => rfl
  | cons c cs =>
    cases cs with
    | nil =>
      show isPunctTok [jsToLower c] = isPunctTok [c]
      simp only [isPunctTok]
      rw [decide_eq_decide]
      simp only [jsToLower]
      split_ifs <;> omega
    | cons d ds => rfl

theorem contains46_lower : ∀ t : List ℕ, (lowerStr t).contains 46 = t.contains 46 := by
  intro t
  induction t with
  | nil => rfl
  | cons c cs ih =>
    rw [lowerStr_cons, List.contains_cons, List.contains_cons, ih]
    congr 1
    simp only [jsToLower]
    split_ifs with h
    · rw [beq_eq_false_iff_ne.mpr (by omega : (46 : ℕ) ≠ c + 32),
          beq_eq_false_iff_ne.mpr (by omega : (46 : ℕ) ≠ c)]
    · rfl

theorem allDigit_lower : ∀ t : List ℕ, (lowerStr t).all isDigitChar = t.all isDigitChar := by
  intro t
  induction t with
  | nil => rfl
  | cons c cs ih =>
    rw [lowerStr_cons, List.all_cons, List.all_cons, ih, isDigitChar_lower]

theorem headQuote_lower (t : List ℕ) : headQuote (lowerStr t) = headQuote t := by
  cases t with
  | nil => rfl
  | cons c cs =>
    show decide (jsToLower c = 39 ∨ jsToLower c = 34) = decide (c = 39 ∨ c = 34)
    simp only [jsToLower]
    split_ifs <;> (rw [decide_eq_decide] <;> omega)

theorem isEmpty_lower (t : List ℕ) : (lowerStr t).isEmpty = t.isEmpty := by
  cases t <;> rfl

theorem tokenLowerBit_lower (t : List ℕ) : tokenLowerBit (lowerStr t) = tokenLowerBit t := by
  rw [tokenLowerBit, tokenLowerBit, isEmpty_lower, isPunctTok_lower, upperStr_lowerStr,
    contains46_lower, allDigit_lower, headQuote_lower]

theorem applyMask_false_run (f : ℕ → ℕ) :
    ∀ (k : ℕ) (m : List Bool) (s : List ℕ), k ≤ s.length →
      applyMask f (List.replicate k false ++ m) s = s.take k ++ applyMask f m (s.drop k) := by
  intro k
  induction k with
  | zero => intro m s _; simp
  | succ k ih =>
    intro m s hk
    cases s with
    | nil => simp at hk
    | cons c cs =>
      have hk2 : k ≤ cs.length := by simpa using hk
      show (if false then f c else c) :: applyMask f (List.replicate k false ++ m) cs = _
      rw [if_neg (by simp), ih m cs hk2]
      rfl

theorem pass2Go_zero_cons (c : ℕ) (cs : List ℕ) :
    pass2Go 0 (c :: cs)
      = if isSepChar c then c :: pass2Go 0 cs
        else
          processToken ((c :: cs).takeWhile (fun d => ! isSepChar d))
            ++ pass2Go (((c :: cs).takeWhile (fun d => ! isSepChar d)).length - 1) cs := rfl

theorem maskP2Go_zero_cons (b : Bool) (c : ℕ) (cs : List ℕ) :
    maskP2Go 0 b (c :: cs)
      = if isSepChar c then false :: maskP2Go 0 b cs
        else
          tokenLowerBit ((c :: cs).takeWhile (fun d => ! isSepChar d))
            :: maskP2Go (((c :: cs).takeWhile (fun d => ! isSepChar d)).length - 1)
                (tokenLowerBit ((c :: cs).takeWhile (fun d => ! isSepChar d))) cs := rfl

theorem pass2_factor :
    ∀ (n : ℕ) (s : List ℕ), s.length ≤ n →
      pass2Go 0 s = applyMask jsToLower (maskP2Go 0 false (lowerStr s)) s := by
  intro n
  induction n with
  | zero =>
    intro s hs
    have hnil : s = [] := List.length_eq_zero.mp (Nat.le_zero.mp hs)
    subst hnil
    rfl
  | succ n ih =>
    intro s hs
    cases s with
    | nil => rfl
    | cons c cs =>
      have hcs : cs.length ≤ n := by
        simp only [List.length_cons] at hs
        omega
      rw [pass2Go_zero_cons, lowerStr_cons, maskP2Go_zero_cons]
      by_cases hsep : isSepChar c = true
      · rw [if_pos hsep, if_pos (by rw [isSepChar_lower]; exact hsep)]
        rw [applyMask_cons, if_neg (by simp), ih cs hcs]
      · have hcf : isSepChar c = false := by
          cases hb : isSepChar c
          · rfl
          · exact absurd hb hsep
        have hlsep : isSepChar (jsToLower c) = false := by rw [isSepChar_lower]; exact hcf
        rw [if_neg hsep, if_neg (by rw [isSepChar_lower]; exact hsep)]
        have htokc : (c :: cs).takeWhile (fun d => ! isSepChar d)
            = c :: cs.takeWhile (fun d => ! isSepChar d) := by
          rw [List.takeWhile_cons]
          simp [hcf]
        have hTW : (lowerStr cs).takeWhile (fun d => ! isSepChar d)
            = lowerStr (cs.takeWhile (fun d => ! isSepChar d)) := by
          rw [lowerStr, List.takeWhile_map]
          have hpred : ((fun d => ! isSepChar d) ∘ jsToLower)
              = (fun d => ! isSepChar d) := by
            funext d
            simp [Function.comp, isSepChar_lower]
          rw [hpred]
          rfl
        have htokL : (jsToLower c :: lowerStr cs).takeWhile (fun d => ! isSepChar d)
            = lowerStr (c :: cs.takeWhile (fun d => ! isSepChar d)) := by
          rw [List.takeWhile_cons]
          simp only [hlsep, Bool.not_false, if_pos]
          rw [hTW, lowerStr_cons]
        rw [htokc, htokL, tokenLowerBit_lower]
        have hlenL : (lowerStr (c :: cs.takeWhile (fun d => ! isSepChar d))).length
            = (cs.takeWhile (fun d => ! isSepChar d)).length + 1 := by
          simp [lowerStr]
        rw [hlenL]
        have htklen : (cs.takeWhile (fun d => ! isSepChar d)).length ≤ cs.length :=
          (List.takeWhile_prefix _).length_le
        rw [Nat.add_sub_cancel]
        rw [maskP2Go_skip]
        have hmin : min (cs.takeWhile (fun d => ! isSepChar d)).length (lowerStr cs).length
            = (cs.takeWhile (fun d => ! isSepChar d)).length := by
          simp only [lowerStr, List.length_map]
          omega
        rw [hmin, lowerStr_drop]
        rw [maskP2Go_zero_bit _ (tokenLowerBit (c :: cs.takeWhile (fun d => ! isSepChar d))) false]
        have hskip2 : pass2Go ((c :: cs.takeWhile (fun d => ! isSepChar d)).length - 1) cs
            = pass2Go 0 (cs.drop (cs.takeWhile (fun d => ! isSepChar d)).length) := by
          rw [pass2Go_skip]
          simp
        rw [hskip2]
        have hproc : processToken (c :: cs.takeWhile (fun d => ! isSepChar d))
            = if tokenLowerBit (c :: cs.takeWhile (fun d => ! isSepChar d)) then
                lowerStr (c :: cs.takeWhile (fun d => ! isSepChar d))
              else c :: cs.takeWhile (fun d => ! isSepChar d) := by
          apply processToken_eq
          · intro hx
            cases hx
          · intro x hx
            cases List.mem_cons.mp hx with
            | inl hxc => rw [hxc]; exact hcf
            | inr hxtk =>
              have := List.mem_takeWhile_imp hxtk
              cases hb : isSepChar x
              · rfl
              · rw [hb] at this
                simp at this
        have htake : cs.take (cs.takeWhile (fun d => ! isSepChar d)).length
            = cs.takeWhile (fun d => ! isSepChar d) :=
          (List.prefix_iff_eq_take.mp (List.takeWhile_prefix _)).symm
        rw [hproc]
        cases hbit : tokenLowerBit (c :: cs.takeWhile (fun d => ! isSepChar d)) with
        | true =>
          rw [if_pos rfl, applyMask_cons, if_pos rfl]
          rw [applyMask_true_run jsToLower _ _ cs htklen]
          rw [ih (cs.drop (cs.takeWhile (fun d => ! isSepChar d)).length)
            (by rw [List.length_drop]; omega)]
          rw [htake, lowerStr_cons]
          rfl
        | false =>
          rw [if_neg (by simp), applyMask_cons, if_neg (by simp)]
          rw [applyMask_false_run jsToLower _ _ cs htklen]
          rw [ih (cs.drop (cs.takeWhile (fun d => ! isSepChar d)).length)
            (by rw [List.length_drop]; omega)]
          rw [htake]
          rfl

theorem pass2_factor_eq (s : List ℕ) :
    pass2Go 0 s = applyMask jsToLower (pass2Mask (lowerStr s)) s :=
  pass2_factor s.length s (le_refl _)

theorem pass2Mask_length (l : List ℕ) : (pass2Mask l).length = l.length :=
  maskP2Go_length l 0 false

theorem lowerStr_pass2 (s : List ℕ) : lowerStr (pass2Go 0 s) = lowerStr s := by
  rw [pass2_factor_eq]
  exact lowerStr_applyMask_full jsToLower jsToLower_jsToLower _ s
    (by rw [pass2Mask_length]; simp [lowerStr])

theorem formatSqlCasing_factor (u : List ℕ) :
    formatSqlCasing u
      = applyMask jsToLower (pass2Mask (lowerStr u))
          (applyMask jsToUpper (pass1Mask (lowerStr u)) u) := by
  rw [formatSqlCasing, pass2_factor_eq, lowerStr_pass1, pass1_factor]

theorem lowerStr_formatSqlCasing (u : List ℕ) :
    lowerStr (formatSqlCasing u) = lowerStr u := by
  rw [formatSqlCasing, lowerStr_pass2, lowerStr_pass1]

theorem applyMask_idem :
    ∀ (s : List ℕ) (m1 m2 : List Bool),
      applyMask jsToLower m2 (applyMask jsToUpper m1
          (applyMask jsToLower m2 (applyMask jsToUpper m1 s)))
        = applyMask jsToLower m2 (applyMask jsToUpper m1 s) := by
  intro s
  induction s with
  | nil =>
    intro m1 m2
    cases m1 <;> cases m2 <;> rfl
  | cons c cs ih =>
    intro m1 m2
    cases m1 with
    | nil => cases m2 <;> rfl
    | cons b1 bs1 =>
      cases m2 with
      | nil => rfl
      | cons b2 bs2 =>
        simp only [applyMask_cons]
        rw [ih bs1 bs2]
        congr 1
        cases b1 <;> cases b2 <;>
          simp [jsToLower_jsToLower, jsToLower_jsToUpper, jsToUpper_jsToUpper]

/-- C4: the SQL casing formatter is idempotent: formatting an already
formatted string changes nothing.  Both passes only change letter case, at
mask positions determined by the case-insensitive skeleton of the input,
which formatting preserves; so a second application applies the same masks
again, and uppercasing/lowercasing at fixed positions is idempotent. -/
theorem formatSqlCasing_idempotent (s : List ℕ) :
    formatSqlCasing (formatSqlCasing s) = formatSqlCasing s := by
  have hm := formatSqlCasing_factor (formatSqlCasing s)
  rw [lowerStr_formatSqlCasing] at hm
  rw [hm, formatSqlCasing_factor s, applyMask_idem]

/-- C6 evaluation: on the input "a GROUP BY b" the first pass keeps the
multi-word keyword GROUP BY uppercase, but the identifier pass splits it
into the tokens GROUP and BY, neither of which is in the keyword set, and
lowercases both: the final output is "a group by b". -/
theorem formatSqlCasing_lowercases_group_by :
    pass1 (strL ("a GROUP BY b")) = strL ("a GROUP BY b") ∧
    formatSqlCasing (strL ("a GROUP BY b")) = strL ("a group by b") := by
  constructor
  · decide
  · decide

theorem mem_ite_singleton {α : Type} {P : Prop} [Decidable P] {m x : α}
    (h : x ∈ (if P then [m] else ([] : List α))) : x = m := by
  split at h
  · simpa using h
  · simp at h

theorem prohibitedMsg_inj (a b : List ℕ) (h : prohibitedMsg a = prohibitedMsg b) : a = b := by
  rw [prohibitedMsg, prohibitedMsg, List.append_assoc, List.append_assoc] at h
  exact List.append_cancel_right (List.append_cancel_left h)

theorem prohibitedMsg_head (op : List ℕ) :
    ∃ r, prohibitedMsg op = 80 :: r := by
  refine ⟨strL ("rohibited operation detected: ") ++ op
      ++ strL (". Only SELECT queries are allowed."), ?_⟩
  rw [prohibitedMsg]
  rfl

/-- C5: the denylist scan of `validateSqlSyntax`.  "DELETE FROM users" is
invalid with an error naming DELETE; "SELECT created_by FROM users" is valid
(CREATE inside the identifier created_by does not fire, word-boundary
matching); and in general, whenever the word-boundary case-insensitive scan
for a denylisted operation finds no match (in particular when the keyword
occurs only as a substring of an identifier), no prohibited-operation error
for it is reported. -/
theorem validateSqlSyntax_denylist :
    ((validateSqlSyntax (strL ("DELETE FROM users"))).isValid = false ∧
      prohibitedMsg (strL ("DELETE"))
        ∈ (validateSqlSyntax (strL ("DELETE FROM users"))).errors) ∧
    (validateSqlSyntax (strL ("SELECT created_by FROM users"))).isValid = true ∧
    (∀ (s op : List ℕ), op ∈ prohibitedOperations →
      hasKwMatch op false (upperStr (normalizeSql s)) = false →
      prohibitedMsg op ∉ (validateSqlSyntax s).errors) := by
  refine ⟨⟨by decide, by decide⟩, by decide, ?_⟩
  intro s op hop hmatch hmem
  obtain ⟨r, hr⟩ := prohibitedMsg_head op
  simp only [validateSqlSyntax] at hmem
  by_cases hemp : (normalizeSql s).isEmpty = true
  · rw [if_pos hemp] at hmem
    simp only [List.mem_singleton] at hmem
    have hcong : (prohibitedMsg op).getD 0 0 = (strL ("SQL query is empty")).getD 0 0 := by
      rw [hmem]
    rw [hr] at hcong
    simp only [List.getD_cons_zero] at hcong
    exact absurd hcong (by decide)
  · rw [if_neg hemp] at hmem
    simp only [List.mem_append] at hmem
    rcases hmem with ((((((h1 | h2) | h3) | h4) | h5) | h6) | h7)
    · simp only [List.mem_map] at h1
      obtain ⟨op2, hop2, heq⟩ := h1
      have hf := List.mem_filter.mp hop2
      have heq2 : op2 = op := prohibitedMsg_inj op2 op heq
      rw [heq2] at hf
      rw [hf.2] at hmatch
      exact Bool.noConfusion hmatch
    · have heq := mem_ite_singleton h2
      have hcong : (prohibitedMsg op).getD 0 0
          = (strL ("Query must start with SELECT keyword")).getD 0 0 := by rw [heq]
      rw [hr] at hcong
      simp only [List.getD_cons_zero] at hcong
      exact absurd hcong (by decide)
    · have heq := mem_ite_singleton h3
      have hcong : (prohibitedMsg op).getD 0 0
          = (strL ("Query must contain a FROM clause")).getD 0 0 := by rw [heq]
      rw [hr] at hcong
      simp only [List.getD_cons_zero] at hcong
      exact absurd hcong (by decide)
    · have heq := mem_ite_singleton h4
      have hcong : (prohibitedMsg op).getD 0 0
          = (strL ("Unbalanced parentheses detected")).getD 0 0 := by rw [heq]
      rw [hr] at hcong
      simp only [List.getD_cons_zero] at hcong
      exact absurd hcong (by decide)
    · have heq := mem_ite_singleton h5
      have hcong : (prohibitedMsg op).getD 0 0
          = (strL ("Unclosed single quotes detected")).getD 0 0 := by rw [heq]
      rw [hr] at hcong
      simp only [List.getD_cons_zero] at hcong
      exact absurd hcong (by decide)
    · have heq := mem_ite_singleton h6
      have hcong : (prohibitedMsg op).getD 0 0
          = (strL ("Unclosed double quotes detected")).getD 0 0 := by rw [heq]
      rw [hr] at hcong
      simp only [List.getD_cons_zero] at hcong
      exact absurd hcong (by decide)
    · have heq := mem_ite_singleton h7
      have hcong : (prohibitedMsg op).getD 0 0
          = (strL ("Multiple SQL statements detected. Only single SELECT queries are allowed.")).getD
              0 0 := by rw [heq]
      rw [hr] at hcong
      simp only [List.getD_cons_zero] at hcong
      exact absurd hcong (by decide)

/-- C5 witness: the general no-boundary-match clause applied to CREATE
inside created_by. -/
theorem validateSqlSyntax_denylist_witness :
    prohibitedMsg (strL ("CREATE"))
      ∉ (validateSqlSyntax (strL ("SELECT created_by FROM users"))).errors :=
  validateSqlSyntax_denylist.2.2 (strL ("SELECT created_by FROM users")) (strL ("CREATE"))
    (by decide) (by decide)

/-- C7 counterexample: "droplets are falling" contains no denylisted verb as
a standalone word or sentence-leading token (the claim deems it valid), yet
`validateInput` rejects it because the text merely starts with the letters
"drop". -/
theorem validateInput_claim_counterexample :
    (validateInput (strL ("droplets are falling"))).isValid = false ∧
    specValidInputC7 (strL ("droplets are falling")) = true := by
  constructor
  · decide
  · decide

/-- C7 amended: `validateInput` is invalid exactly when the input exceeds
500 units, or its lowercasing contains a denylisted verb with a space on
both sides, or begins with a denylisted verb as a raw string prefix (even
mid-word). -/
theorem validateInput_characterization (input : List ℕ) :
    (validateInput input).isValid = false
      ↔ (500 < input.length
          ∨ ∃ kw ∈ forbiddenKeywords,
              hasSub (32 :: (kw ++ [32])) (lowerStr input) = true
              ∨ List.isPrefixOf kw (lowerStr input) = true) := by
  simp only [validateInput]
  split_ifs with h1 h2
  · constructor
    · intro _
      exact Or.inl h1
    · intro _
      rfl
  · simp only [List.any_eq_true, Bool.or_eq_true] at h2
    constructor
    · intro _
      exact Or.inr h2
    · intro _
      rfl
  · constructor
    · intro hf
      exact absurd hf (by simp)
    · intro hrr
      cases hrr with
      | inl h => exact absurd h h1
      | inr h =>
        refine absurd ?_ h2
        simp only [List.any_eq_true, Bool.or_eq_true]
        exact h

end NLP2SQL
